import Mathlib

/-!
Verification of the code-intelligence layer of the knut repository.

The development shallowly embeds the relevant parts of the sources:

* `Core.TextDocument` (the text buffer, cursor navigation, position
  conversion, file format detection and save) comes from the
  `TextDocument` implementation file of the repository.
* The `LspDocument` / `TreeSitterHelper` implementation files are not
  part of the source snapshot (only their headers are); the pieces
  needed by the claims are modelled from the specification, each marked
  with a doc comment starting with `Modelled from the spec:`.

Text is modelled as `List Char`; raw file bytes as `List Nat`.
-/

namespace Knut

/-! ## Position mapping (TextDocument::convertPosition and friends)

A `QTextDocument` splits its content into blocks at `'\n'` characters.
The block containing a cursor position `pos` is the block whose span
covers `pos`; its `blockNumber` equals the number of `'\n'` characters
strictly before `pos`, and `block.position()` is the offset at which
that block starts.
-/

/-- Number of `'\n'` characters in the content. -/
def countNL : List Char → Nat
  | [] => 0
  | c :: rest => (if c = '\n' then 1 else 0) + countNL rest

/-- Start offset of the 0-based line `k` (`QTextBlock::position` of
`findBlockByNumber k`). -/
def lineStart : List Char → Nat → Nat
  | _, 0 => 0
  | [], _ + 1 => 0
  | c :: rest, k + 1 => if c = '\n' then 1 + lineStart rest k else 1 + lineStart rest (k + 1)

/-- `QTextDocument::blockCount`: number of lines. -/
def blockCount (content : List Char) : Nat :=
  countNL content + 1

/-- 0-based (blockNumber, positionInBlock) of a cursor position:
`blockNumber` counts the newlines before `pos`, and `positionInBlock`
is `pos - block.position()` exactly as in the source. -/
def toPositionRaw (content : List Char) (pos : Nat) : Nat × Nat :=
  (countNL (content.take pos), pos - lineStart content (countNL (content.take pos)))

/-- `TextDocument::convertPosition`: looks up the block containing `pos`;
if the block is invalid (the offset is out of the document's bounds) both
outputs are `-1`, otherwise the 1-based line and column. -/
def convertPosition (content : List Char) (pos : Int) : Int × Int :=
  if pos < 0 ∨ (content.length : Int) < pos then (-1, -1)
  else
    let lc := toPositionRaw content pos.toNat
    ((lc.1 : Int) + 1, (lc.2 : Int) + 1)

/-- Modelled from the spec: the inverse conversion `toOffset(line, col)`
(the implementation of `LspDocument::toPos` is not under src/); spec
§4.1: `toOffset(line,col) -> offset` with 1-based line and column as in
the caller-facing API: the offset of the start of line `line` plus the
0-based column. -/
def toOffset (content : List Char) (line col : Int) : Int :=
  (lineStart content (line - 1).toNat : Int) + (col - 1)

/-- `TextDocument::gotoLine(line, column)`: 1-based `line` and `column`;
the source clamps `line` with `qMin(line, blockCount)`, positions the
cursor at the block start when the block is valid, and then moves right
`column - 1` characters (`QTextCursor::Right` stops at the document
end). Returns the new cursor position; when the block is invalid the
cursor is left unchanged. -/
def gotoLine (content : List Char) (cursor : Nat) (line column : Int) : Nat :=
  let col0 := column - 1
  let bc : Int := (blockCount content : Int)
  let blockNumber := min line bc - 1
  if 0 ≤ blockNumber ∧ blockNumber < bc then
    let s := lineStart content blockNumber.toNat
    if 0 < col0 then min (s + col0.toNat) content.length else s
  else cursor

/-! ### Round-trip lemmas for C3 -/

theorem lineStart_zero (content : List Char) : lineStart content 0 = 0 := by
  cases content <;> rfl

theorem lineStart_countNL_take_le (content : List Char) :
    ∀ pos : Nat, lineStart content (countNL (content.take pos)) ≤ pos := by
  induction content with
  | nil =>
    intro pos
    cases pos <;> simp [countNL, lineStart]
  | cons c rest ih =>
    intro pos
    cases pos with
    | zero => simp [countNL, lineStart]
    | succ p =>
      by_cases hc : c = '\n'
      · subst hc
        have : countNL (('\n' :: rest).take (p + 1)) = countNL (rest.take p) + 1 := by
          simp [countNL]
          omega
        rw [this]
        have hls : lineStart ('\n' :: rest) (countNL (rest.take p) + 1)
            = 1 + lineStart rest (countNL (rest.take p)) := by
          simp [lineStart]
        rw [hls]
        have := ih p
        omega
      · have hcnt : countNL ((c :: rest).take (p + 1)) = countNL (rest.take p) := by
          simp [countNL, hc]
        rw [hcnt]
        rcases h : countNL (rest.take p) with _ | j
        · rw [lineStart_zero]
          omega
        · have hls : lineStart (c :: rest) (j + 1) = 1 + lineStart rest (j + 1) := by
            simp [lineStart, hc]
          rw [hls]
          have := ih p
          rw [h] at this
          omega

/-- C3: for every offset `o` within the current buffer's bounds,
converting `o` to a (line, column) position with
`TextDocument::convertPosition` and converting that position back with
`toOffset` yields `o` again. -/
theorem convertPosition_toOffset_roundtrip (content : List Char) (o : Nat)
    (h : o ≤ content.length) :
    toOffset content (convertPosition content (o : Int)).1 (convertPosition content (o : Int)).2
      = (o : Int) := by
  have hin : ¬ ((o : Int) < 0 ∨ (content.length : Int) < (o : Int)) := by
    push_neg
    constructor
    · exact Int.ofNat_nonneg o
    · exact_mod_cast h
  simp only [convertPosition, if_neg hin]
  have htn : ((o : Int)).toNat = o := Int.toNat_ofNat o
  rw [htn]
  simp only [toOffset, toPositionRaw]
  have hle := lineStart_countNL_take_le content o
  have h1 : ((countNL (content.take o) : Int) + 1 - 1).toNat = countNL (content.take o) := by
    omega
  rw [h1]
  omega

/-- C3 witness: the round trip at a concrete offset of a concrete buffer. -/
theorem convertPosition_toOffset_roundtrip_witness :
    (4 : Nat) ≤ (['a', 'b', '\n', 'c', 'd'] : List Char).length ∧
      toOffset ['a', 'b', '\n', 'c', 'd']
          (convertPosition ['a', 'b', '\n', 'c', 'd'] (4 : Int)).1
          (convertPosition ['a', 'b', '\n', 'c', 'd'] (4 : Int)).2 = (4 : Int) :=
  ⟨by decide, convertPosition_toOffset_roundtrip ['a', 'b', '\n', 'c', 'd'] 4 (by decide)⟩

/-! ### C4: out-of-range behaviour of position conversion and navigation -/

/-- C4 counterexample: the claim "for every line/column/offset input
beyond the buffer's bounds ... the operation is a no-op ... and the
input is never silently clamped" is false for `gotoLine`: on the buffer
`"a\nb"` (2 blocks) the call `gotoLine(5, 1)` does not fail and is not a
no-op; the line is silently clamped with `qMin(line, blockCount)` and
the cursor moves from offset 0 to offset 2 (start of the last block). -/
theorem gotoLine_clamps_counterexample :
    blockCount ['a', '\n', 'b'] = 2 ∧
      (5 : Int) > (blockCount ['a', '\n', 'b'] : Int) ∧
      gotoLine ['a', '\n', 'b'] 0 5 1 = 2 ∧
      gotoLine ['a', '\n', 'b'] 0 5 1 ≠ 0 := by
  refine ⟨by decide, by decide, by decide, by decide⟩

/-- C4 amended: `convertPosition` does report out-of-range offsets (both
outputs are `-1`) and never clamps them, and `gotoLine` with a line of
at most 0 is a no-op; but `gotoLine` with a line beyond the block count
silently clamps it to the last block (behaving exactly like a call with
`line = blockCount`) and moves the cursor. -/
theorem convertPosition_out_of_range_gotoLine_clamps (content : List Char)
    (pos : Int) (cursor : Nat) (line column : Int)
    (hpos : (content.length : Int) < pos) (hline : (blockCount content : Int) < line) :
    convertPosition content pos = (-1, -1) ∧
      gotoLine content cursor line column
        = gotoLine content cursor (blockCount content : Int) column ∧
      (∀ l : Int, l ≤ 0 → gotoLine content cursor l column = cursor) := by
  refine ⟨?_, ?_, ?_⟩
  · simp only [convertPosition]
    rw [if_pos (Or.inr hpos)]
  · simp only [gotoLine]
    rw [min_eq_right (le_of_lt hline), min_self]
  · intro l hl
    simp only [gotoLine]
    rw [if_neg]
    intro hcontra
    rcases hcontra with ⟨h1, _⟩
    have hbc : (1 : Int) ≤ (blockCount content : Int) := by
      have : 1 ≤ blockCount content := Nat.succ_le_succ (Nat.zero_le _)
      exact_mod_cast this
    have hminle : min l (blockCount content : Int) ≤ l := min_le_left _ _
    omega

/-- C4 amended witness: concrete out-of-range inputs. -/
theorem convertPosition_out_of_range_gotoLine_clamps_witness :
    ((['a'] : List Char).length : Int) < 5 ∧ (blockCount ['a'] : Int) < 7 ∧
      (convertPosition ['a'] 5 = (-1, -1) ∧
        gotoLine ['a'] 0 7 1 = gotoLine ['a'] 0 (blockCount ['a'] : Int) 1 ∧
        (∀ l : Int, l ≤ 0 → gotoLine ['a'] 0 l 1 = 0)) :=
  ⟨by decide, by decide,
    convertPosition_out_of_range_gotoLine_clamps ['a'] 5 0 7 1 (by decide) (by decide)⟩

/-! ## File format detection and save (TextDocument::detectFormat / doSave)

Raw file bytes are modelled as `List Nat`; `'\n'` is byte 10, `'\r'`
byte 13, the UTF-8 BOM is the byte sequence `0xEF 0xBB 0xBF`.
-/

inductive LineEnding where
  | lf
  | crlf
  | nativeLE
  deriving DecidableEq

/-- Index of the first occurrence of `t`, as `QByteArray::indexOf`. -/
def findIdxOf : List Nat → Nat → Option Nat
  | [], _ => none
  | b :: rest, t => if b = t then some 0 else (findIdxOf rest t).map (· + 1)

/-- The BOM check of `TextDocument::detectFormat`:
`bytesRead >= 3 && buf[0] == 0xef && buf[1] == 0xbb && buf[2] == 0xbf`. -/
def detectBom : List Nat → Bool
  | b0 :: b1 :: b2 :: _ => b0 = 0xEF ∧ b1 = 0xBB ∧ b2 = 0xBF
  | _ => false

/-- `TextDocument::detectFormat`: on empty data the members keep their
defaults (no BOM, native line ending); otherwise the BOM flag is set
from the first three bytes and the line ending is chosen by looking at
the byte preceding the first `'\n'`. -/
def detectFormat (data : List Nat) : Bool × LineEnding :=
  if data = [] then (false, LineEnding.nativeLE)
  else
    let le := match findIdxOf data 10 with
      | none => LineEnding.nativeLE
      | some 0 => LineEnding.lf
      | some (k + 1) => if data.get? k = some 13 then LineEnding.crlf else LineEnding.lf
    (detectBom data, le)

/-- `QString::replace('\n', "\r\n")` as performed by `TextDocument::doSave`
when the line ending is CRLF. -/
def lfToCrlf : List Char → List Char
  | [] => []
  | c :: rest => if c = '\n' then '\r' :: '\n' :: lfToCrlf rest else c :: lfToCrlf rest

/-- One byte per character; enough to model the stream write of
`doSave` for the properties at issue (BOM and line-ending handling). -/
def serializeText (content : List Char) : List Nat :=
  content.map Char.toNat

/-- `TextDocument::doSave`: writes the three BOM bytes when `m_utf8Bom`
is set, then the plain text, with every `'\n'` replaced by `"\r\n"` when
`m_lineEnding == CRLFLineEnding`. -/
def doSave (bom : Bool) (le : LineEnding) (content : List Char) : List Nat :=
  (if bom then [0xEF, 0xBB, 0xBF] else [])
    ++ serializeText (if le = LineEnding.crlf then lfToCrlf content else content)

/-- The inverse translation performed on load (`QTextStream` replaces
`"\r\n"` by `'\n'`, as the comment in `TextDocument::doLoad` records). -/
def crlfToLf : List Char → List Char
  | [] => []
  | [c] => [c]
  | c :: d :: rest =>
    if c = '\r' ∧ d = '\n' then '\n' :: crlfToLf rest
    else c :: crlfToLf (d :: rest)

/-- Checks that every `'\n'` is immediately preceded by `'\r'`. -/
def crlfOnly : List Char → Bool
  | [] => true
  | [c] => c ≠ '\n'
  | c :: d :: rest =>
    if c = '\n' then false
    else if c = '\r' ∧ d = '\n' then crlfOnly rest
    else crlfOnly (d :: rest)

theorem lfToCrlf_eq_nil_iff (l : List Char) : lfToCrlf l = [] ↔ l = [] := by
  cases l with
  | nil => simp [lfToCrlf]
  | cons c rest =>
    constructor
    · intro h
      by_cases hc : c = '\n'
      · rw [show lfToCrlf (c :: rest) = '\r' :: '\n' :: lfToCrlf rest from by
          simp [lfToCrlf, hc]] at h
        exact absurd h (by simp)
      · rw [show lfToCrlf (c :: rest) = c :: lfToCrlf rest from by
          simp [lfToCrlf, hc]] at h
        exact absurd h (by simp)
    · intro h
      exact absurd h (by simp)

theorem crlfOnly_lfToCrlf (content : List Char) (hnoCR : '\r' ∉ content) :
    crlfOnly (lfToCrlf content) = true := by
  induction content with
  | nil => simp [lfToCrlf, crlfOnly]
  | cons c rest ih =>
    have hcr : c ≠ '\r' := fun h => hnoCR (h ▸ List.mem_cons_self c rest)
    have hrest : '\r' ∉ rest := fun h => hnoCR (List.mem_cons_of_mem c h)
    by_cases hc : c = '\n'
    · subst hc
      rw [show lfToCrlf ('\n' :: rest) = '\r' :: '\n' :: lfToCrlf rest from by
        simp [lfToCrlf]]
      rw [show crlfOnly ('\r' :: '\n' :: lfToCrlf rest)
          = crlfOnly (lfToCrlf rest) from by simp [crlfOnly]]
      exact ih hrest
    · rw [show lfToCrlf (c :: rest) = c :: lfToCrlf rest from by simp [lfToCrlf, hc]]
      rcases hL : lfToCrlf rest with _ | ⟨d, L2⟩
      · simp [crlfOnly, hc]
      · rw [show crlfOnly (c :: d :: L2) = crlfOnly (d :: L2) from by
          simp [crlfOnly, hc, hcr]]
        rw [← hL]
        exact ih hrest

theorem crlfToLf_lfToCrlf (content : List Char) (hnoCR : '\r' ∉ content) :
    crlfToLf (lfToCrlf content) = content := by
  induction content with
  | nil => simp [lfToCrlf, crlfToLf]
  | cons c rest ih =>
    have hcr : c ≠ '\r' := fun h => hnoCR (h ▸ List.mem_cons_self c rest)
    have hrest : '\r' ∉ rest := fun h => hnoCR (List.mem_cons_of_mem c h)
    by_cases hc : c = '\n'
    · subst hc
      rw [show lfToCrlf ('\n' :: rest) = '\r' :: '\n' :: lfToCrlf rest from by
        simp [lfToCrlf]]
      rw [show crlfToLf ('\r' :: '\n' :: lfToCrlf rest)
          = '\n' :: crlfToLf (lfToCrlf rest) from by simp [crlfToLf]]
      rw [ih hrest]
    · rw [show lfToCrlf (c :: rest) = c :: lfToCrlf rest from by simp [lfToCrlf, hc]]
      rcases hL : lfToCrlf rest with _ | ⟨d, L2⟩
      · have : rest = [] := (lfToCrlf_eq_nil_iff rest).mp hL
        subst this
        simp [crlfToLf]
      · rw [show crlfToLf (c :: d :: L2) = c :: crlfToLf (d :: L2) from by
          simp [crlfToLf, hcr]]
        rw [← hL]
        rw [ih hrest]

/-- C9: `detectFormat` sets the BOM flag iff the data starts with the
three UTF-8 BOM bytes, and reports CRLF iff the byte preceding the first
`'\n'` is `'\r'`; `doSave` then writes the BOM bytes first iff the flag
is set and, exactly in the CRLF case, writes every `'\n'` of the content
as `"\r\n"` (for CR-free content the translation is faithfully undone by
the load-time `"\r\n" -> '\n'` replacement). -/
theorem detectFormat_doSave_roundtrip (data : List Nat) (content : List Char) :
    ((detectFormat data).1 = true ↔ data.take 3 = [0xEF, 0xBB, 0xBF]) ∧
      ((detectFormat data).2 = LineEnding.crlf ↔
        (∃ k, findIdxOf data 10 = some (k + 1) ∧ data.get? k = some 13)) ∧
      doSave (detectFormat data).1 (detectFormat data).2 content
        = (if (detectFormat data).1 then [0xEF, 0xBB, 0xBF] else [])
            ++ serializeText
                (if (detectFormat data).2 = LineEnding.crlf then lfToCrlf content
                 else content) ∧
      ('\r' ∉ content →
        crlfOnly (lfToCrlf content) = true ∧ crlfToLf (lfToCrlf content) = content) := by
  refine ⟨?_, ?_, rfl, fun h => ⟨crlfOnly_lfToCrlf content h, crlfToLf_lfToCrlf content h⟩⟩
  · by_cases hd : data = []
    · subst hd
      simp [detectFormat]
    · simp only [detectFormat, if_neg hd]
      match data, hd with
      | b0 :: b1 :: b2 :: rest, _ =>
        constructor
        · intro h
          have := of_decide_eq_true h
          rcases this with ⟨h0, h1, h2⟩
          simp [List.take, h0, h1, h2]
        · intro h
          simp only [List.take] at h
          injection h with h0 h'
          injection h' with h1 h''
          injection h'' with h2 _
          exact decide_eq_true ⟨h0, h1, h2⟩
      | [b0], _ =>
        constructor
        · intro h
          exact absurd h (by simp [detectBom])
        · intro h
          simp [List.take] at h
      | [b0, b1], _ =>
        constructor
        · intro h
          exact absurd h (by simp [detectBom])
        · intro h
          simp [List.take] at h
  · by_cases hd : data = []
    · subst hd
      constructor
      · intro h
        simp [detectFormat] at h
      · rintro ⟨k, hk, _⟩
        simp [findIdxOf] at hk
    · simp only [detectFormat, if_neg hd]
      rcases hfind : findIdxOf data 10 with _ | k
      · show LineEnding.nativeLE = LineEnding.crlf ↔ _
        constructor
        · intro h
          exact absurd h (by simp)
        · rintro ⟨k, hk, _⟩
          exact absurd hk (by simp)
      · rcases k with _ | k'
        · show LineEnding.lf = LineEnding.crlf ↔ _
          constructor
          · intro h
            exact absurd h (by simp)
          · rintro ⟨k, hk, _⟩
            injection hk with hk'
            omega
        · show (if data.get? k' = some 13 then LineEnding.crlf else LineEnding.lf)
            = LineEnding.crlf ↔ _
          by_cases h13 : data.get? k' = some 13
          · rw [if_pos h13]
            constructor
            · intro _
              exact ⟨k', rfl, h13⟩
            · intro _
              rfl
          · rw [if_neg h13]
            constructor
            · intro h
              exact absurd h (by simp)
            · rintro ⟨k, hk, hgot⟩
              injection hk with hk'
              have hkk : k = k' := by omega
              subst hkk
              exact absurd hgot h13

/-- C9 witness: a concrete CRLF file with BOM. -/
theorem detectFormat_doSave_roundtrip_witness :
    ((detectFormat [0xEF, 0xBB, 0xBF, 65, 13, 10, 66]).1 = true ↔
        [0xEF, 0xBB, 0xBF, 65, 13, 10, 66].take 3 = [0xEF, 0xBB, 0xBF]) ∧
      '\r' ∉ (['a', '\n', 'b'] : List Char) ∧
      crlfOnly (lfToCrlf ['a', '\n', 'b']) = true ∧
      crlfToLf (lfToCrlf ['a', '\n', 'b']) = ['a', '\n', 'b'] :=
  ⟨(detectFormat_doSave_roundtrip [0xEF, 0xBB, 0xBF, 65, 13, 10, 66] ['a', '\n', 'b']).1,
    by decide,
    ((detectFormat_doSave_roundtrip [0xEF, 0xBB, 0xBF, 65, 13, 10, 66]
        ['a', '\n', 'b']).2.2.2 (by decide)).1,
    ((detectFormat_doSave_roundtrip [0xEF, 0xBB, 0xBF, 65, 13, 10, 66]
        ['a', '\n', 'b']).2.2.2 (by decide)).2⟩

/-! ## TextDocument::selectedText (C10) -/

/-- `TextDocument::selectedText`: `QTextCursor::selectedText` uses
U+2029 (paragraph separator) in place of `'\n'`; the source replaces
every `QChar(8233)` with `'\n'`. -/
def selectedText (raw : List Char) : List Char :=
  raw.map (fun c => if c = Char.ofNat 8233 then '\n' else c)

/-- C10: `selectedText` replaces every paragraph-separator character
U+2029 by `'\n'` (other characters are kept in place) and the returned
string never contains U+2029. -/
theorem selectedText_no_paragraph_separator (raw : List Char) :
    (∀ c ∈ selectedText raw, c ≠ Char.ofNat 8233) ∧
      (∀ k, raw.get? k = some (Char.ofNat 8233) → (selectedText raw).get? k = some '\n') ∧
      (∀ k c, raw.get? k = some c → c ≠ Char.ofNat 8233 →
        (selectedText raw).get? k = some c) := by
  refine ⟨?_, ?_, ?_⟩
  · intro c hc
    rcases List.mem_map.mp hc with ⟨d, _, hd⟩
    by_cases h : d = Char.ofNat 8233
    · rw [if_pos h] at hd
      rw [← hd]
      decide
    · rw [if_neg h] at hd
      rw [← hd]
      exact h
  · intro k hk
    simp only [selectedText, List.get?_map, hk]
    show some (if Char.ofNat 8233 = Char.ofNat 8233 then '\n' else Char.ofNat 8233) = some '\n'
    rw [if_pos rfl]
  · intro k c hk hc
    simp only [selectedText, List.get?_map, hk]
    show some (if c = Char.ofNat 8233 then '\n' else c) = some c
    rw [if_neg hc]

/-! ## TextBuffer revision counter (C2, C8)

`LspDocument` keeps `int m_revision = 0` and bumps it in
`changeContent` on every content change; the implementation file is not
under src/, so the mutation primitive is modelled from the spec.
-/

/-- The TextBuffer of spec §3: mutable content plus a monotonic
revision counter. -/
structure TextBuffer where
  content : List Char
  revision : Nat
  deriving DecidableEq

/-- Modelled from the spec: `replace(range, text)` is the single
mutation primitive (spec §4.1); every successful replace rewrites the
addressed character range and increments `revision` exactly once (the
`LspDocument::changeContent` implementation that bumps `m_revision` is
not under src/). -/
def replaceRange (buf : TextBuffer) (start len : Nat) (text : List Char) : TextBuffer :=
  { content := buf.content.take start ++ text ++ buf.content.drop (start + len),
    revision := buf.revision + 1 }

/-- An edit request: replace `removed` characters at `start` by `text`. -/
structure Edit where
  start : Nat
  removed : Nat
  text : List Char

def applyEdit (buf : TextBuffer) (e : Edit) : TextBuffer :=
  replaceRange buf e.start e.removed e.text

def applyEdits (buf : TextBuffer) : List Edit → TextBuffer
  | [] => buf
  | e :: es => applyEdits (applyEdit buf e) es

theorem applyEdits_revision (es : List Edit) :
    ∀ buf : TextBuffer, (applyEdits buf es).revision = buf.revision + es.length := by
  induction es with
  | nil => intro buf; simp [applyEdits]
  | cons e es ih =>
    intro buf
    show (applyEdits (applyEdit buf e) es).revision = buf.revision + (es.length + 1)
    rw [ih (applyEdit buf e)]
    show buf.revision + 1 + es.length = buf.revision + (es.length + 1)
    omega

/-- C2: every successful `replace` (the single mutation primitive)
increments the revision by exactly one, so the revision strictly
increases with every edit and never decreases, wraps or resets over any
sequence of edits applied while the document is open. -/
theorem revision_strictly_increases (buf : TextBuffer) (e : Edit) (es : List Edit) :
    (applyEdit buf e).revision = buf.revision + 1 ∧
      buf.revision < (applyEdit buf e).revision ∧
      (applyEdits buf es).revision = buf.revision + es.length ∧
      (∀ es2 : List Edit, es2 ≠ [] → buf.revision < (applyEdits buf es2).revision) := by
  refine ⟨rfl, Nat.lt_succ_self _, applyEdits_revision es buf, ?_⟩
  intro es2 hne
  rw [applyEdits_revision es2 buf]
  have : es2.length ≠ 0 := fun h => hne (List.length_eq_zero.mp h)
  omega

/-- Validity of a revision-tagged cached result (spec §3: a
`CachedResult` is valid iff `sourceRevision == TextBuffer.revision`). -/
def cacheValid (sourceRevision : Nat) (buf : TextBuffer) : Bool :=
  sourceRevision = buf.revision

/-- A structural symbol: name, kind, range (spec §3). -/
structure SRange where
  start : Nat
  stop : Nat
  deriving DecidableEq

structure Symbol where
  name : List Char
  kind : Nat
  range : SRange
  deriving DecidableEq

/-- Modelled from the spec: `deleteSymbol(symbol)` removes the symbol's
`range` from the TextBuffer via `replace` (spec §4.3); the
`LspDocument::deleteSymbol` implementation is not under src/. -/
def deleteSymbol (buf : TextBuffer) (sym : Symbol) : TextBuffer :=
  replaceRange buf sym.range.start (sym.range.stop - sym.range.start) []

/-- C8: `deleteSymbol` is exactly a `replace` of the symbol's range with
empty text: the resulting content is the old content with precisely the
range `[start, stop)` removed, the revision is incremented like any
other edit, and every result cached against the old revision becomes
invalid (the normal invalidation path). -/
theorem deleteSymbol_via_replace (buf : TextBuffer) (sym : Symbol)
    (h : sym.range.start ≤ sym.range.stop) :
    deleteSymbol buf sym
        = replaceRange buf sym.range.start (sym.range.stop - sym.range.start) [] ∧
      (deleteSymbol buf sym).content
        = buf.content.take sym.range.start ++ buf.content.drop sym.range.stop ∧
      (deleteSymbol buf sym).revision = buf.revision + 1 ∧
      cacheValid buf.revision (deleteSymbol buf sym) = false := by
  refine ⟨rfl, ?_, rfl, ?_⟩
  · show buf.content.take sym.range.start ++ [] ++
        buf.content.drop (sym.range.start + (sym.range.stop - sym.range.start))
      = buf.content.take sym.range.start ++ buf.content.drop sym.range.stop
    rw [Nat.add_sub_cancel' h]
    simp
  · show decide (buf.revision = buf.revision + 1) = false
    simp

/-- C8 witness: deleting a concrete symbol from a concrete buffer. -/
theorem deleteSymbol_via_replace_witness :
    (3 : Nat) ≤ 5 ∧
      (deleteSymbol ⟨['h', 'e', 'l', 'l', 'o', '!'], 4⟩ ⟨['x'], 0, ⟨3, 5⟩⟩).content
        = ['h', 'e', 'l', '!'] ∧
      (deleteSymbol ⟨['h', 'e', 'l', 'l', 'o', '!'], 4⟩ ⟨['x'], 0, ⟨3, 5⟩⟩).revision = 5 ∧
      cacheValid 4 (deleteSymbol ⟨['h', 'e', 'l', 'l', 'o', '!'], 4⟩ ⟨['x'], 0, ⟨3, 5⟩⟩)
        = false := by
  have h := deleteSymbol_via_replace ⟨['h', 'e', 'l', 'l', 'o', '!'], 4⟩ ⟨['x'], 0, ⟨3, 5⟩⟩
    (by decide)
  exact ⟨by decide, h.2.1, h.2.2.1, h.2.2.2⟩

/-! ## AnalysisBridge request/response lifecycle (C1)

`LspDocument` snapshots `m_revision` when a semantic request is issued
and compares it with the current revision when the response arrives;
the implementation is not under src/ (only `lspdocument.h` with
`m_revision` and the `LspCache`), so the lifecycle is modelled from
spec §4.4.
-/

inductive LspEvent where
  | edit
  | issue (id : Nat)
  | respond (id : Nat) (payload : Nat)
  deriving DecidableEq

/-- Bridge-visible document state: current revision, outstanding
requests `(id, requestRevision)`, responses delivered to the caller and
results written into the cache, both tagged `(id, payload, revision)`. -/
structure BridgeState where
  revision : Nat
  pending : List (Nat × Nat)
  delivered : List (Nat × Nat × Nat)
  resultCache : List (Nat × Nat × Nat)
  deriving DecidableEq

/-- Modelled from the spec: one step of the request lifecycle of spec
§4.4 (the `LspDocument` implementation is not under src/). An edit bumps
the revision; issuing a request snapshots `requestRevision =
buffer.revision`; on response arrival the response is delivered and
cached only when `buffer.revision == requestRevision`, otherwise it is
stale and discarded. -/
def lspStep (s : BridgeState) : LspEvent → BridgeState
  | LspEvent.edit => { s with revision := s.revision + 1 }
  | LspEvent.issue i => { s with pending := (i, s.revision) :: s.pending }
  | LspEvent.respond i v =>
    match s.pending.find? (fun p => decide (p.1 = i)) with
    | none => s
    | some pr =>
      let rest := s.pending.filter (fun p => decide (p.1 ≠ i))
      if s.revision = pr.2 then
        { s with pending := rest,
                 delivered := (i, v, pr.2) :: s.delivered,
                 resultCache := (i, v, pr.2) :: s.resultCache }
      else
        { s with pending := rest }

def lspRun (s : BridgeState) : List LspEvent → BridgeState
  | [] => s
  | e :: es => lspRun (lspStep s e) es

theorem lspStep_revision_respond (s : BridgeState) (i v : Nat) :
    (lspStep s (LspEvent.respond i v)).revision = s.revision := by
  simp only [lspStep]
  split
  · rfl
  · split <;> rfl

theorem lspStep_revision (s : BridgeState) (e : LspEvent) :
    (lspStep s e).revision = if e = LspEvent.edit then s.revision + 1 else s.revision := by
  cases e with
  | edit => rfl
  | issue i => rfl
  | respond i v =>
    rw [lspStep_revision_respond]
    rfl

theorem lspRun_revision_no_edit (es : List LspEvent) :
    ∀ s : BridgeState, LspEvent.edit ∉ es → (lspRun s es).revision = s.revision := by
  induction es with
  | nil => intro s _; rfl
  | cons e es ih =>
    intro s hne
    have he : e ≠ LspEvent.edit := fun h => hne (h ▸ List.mem_cons_self e es)
    have hes : LspEvent.edit ∉ es := fun h => hne (List.mem_cons_of_mem e h)
    show (lspRun (lspStep s e) es).revision = s.revision
    rw [ih (lspStep s e) hes, lspStep_revision, if_neg he]

theorem lspRun_revision_le (es : List LspEvent) :
    ∀ s : BridgeState, s.revision ≤ (lspRun s es).revision := by
  induction es with
  | nil => intro s; exact le_refl _
  | cons e es ih =>
    intro s
    have h1 : s.revision ≤ (lspStep s e).revision := by
      rw [lspStep_revision]
      by_cases h : e = LspEvent.edit <;> simp [h]
    exact le_trans h1 (ih (lspStep s e))

theorem lspRun_revision_edit (es : List LspEvent) :
    ∀ s : BridgeState, LspEvent.edit ∈ es → s.revision < (lspRun s es).revision := by
  induction es with
  | nil => intro s h; exact absurd h (List.not_mem_nil _)
  | cons e es ih =>
    intro s hmem
    by_cases he : e = LspEvent.edit
    · subst he
      show s.revision < (lspRun (lspStep s LspEvent.edit) es).revision
      have h1 : (lspStep s LspEvent.edit).revision = s.revision + 1 := rfl
      have h2 := lspRun_revision_le es (lspStep s LspEvent.edit)
      omega
    · have hes : LspEvent.edit ∈ es := by
        rcases List.mem_cons.mp hmem with h | h
        · exact absurd h.symm he
        · exact h
      have h1 : (lspStep s e).revision = s.revision := by
        rw [lspStep_revision, if_neg he]
      have h2 := ih (lspStep s e) hes
      show s.revision < (lspRun (lspStep s e) es).revision
      omega

theorem find?_filter_of_imp {α : Type} (p q : α → Bool) (l : List α)
    (h : ∀ x, p x = true → q x = true) :
    (l.filter q).find? p = l.find? p := by
  induction l with
  | nil => rfl
  | cons x xs ih =>
    by_cases hp : p x = true
    · have hq := h x hp
      rw [List.filter_cons_of_pos hq, List.find?_cons_of_pos _ hp, List.find?_cons_of_pos _ hp]
    · by_cases hq : q x = true
      · rw [List.filter_cons_of_pos hq, List.find?_cons_of_neg _ hp,
          List.find?_cons_of_neg _ hp]
        exact ih
      · rw [List.filter_cons_of_neg hq, List.find?_cons_of_neg _ hp]
        exact ih

/-- The pending entry for a request id survives a run that contains no
event for that id. -/
theorem lspRun_pending_find (i R : Nat) (es : List LspEvent) :
    ∀ s : BridgeState,
      (∀ e ∈ es, (∀ w : Nat, e ≠ LspEvent.respond i w) ∧ e ≠ LspEvent.issue i) →
      s.pending.find? (fun p => decide (p.1 = i)) = some (i, R) →
      (lspRun s es).pending.find? (fun p => decide (p.1 = i)) = some (i, R) := by
  induction es with
  | nil => intro s _ h; exact h
  | cons e es ih =>
    intro s hes hfind
    have he := hes e (List.mem_cons_self e es)
    have hes' : ∀ e' ∈ es, (∀ w : Nat, e' ≠ LspEvent.respond i w) ∧ e' ≠ LspEvent.issue i :=
      fun e' h' => hes e' (List.mem_cons_of_mem e h')
    refine ih (lspStep s e) hes' ?_
    cases e with
    | edit => exact hfind
    | issue j =>
      have hji : j ≠ i := fun h => he.2 (by rw [h])
      show ((j, s.revision) :: s.pending).find? (fun p => decide (p.1 = i)) = some (i, R)
      rw [List.find?_cons_of_neg _ (by simp [hji])]
      exact hfind
    | respond j w =>
      have hji : j ≠ i := fun h => (he.1 w) (by rw [h])
      have hrest : (s.pending.filter (fun p => decide (p.1 ≠ j))).find?
          (fun p => decide (p.1 = i)) = some (i, R) := by
        rw [find?_filter_of_imp _ _ _ ?_]
        · exact hfind
        · intro x hx
          have hxi : x.1 = i := of_decide_eq_true hx
          simp [hxi, Ne.symm hji]
      show (lspStep s (LspEvent.respond j w)).pending.find? (fun p => decide (p.1 = i))
        = some (i, R)
      simp only [lspStep]
      split
      · exact hfind
      · split
        · exact hrest
        · exact hrest

/-- Shape of a response step when the request id is pending. -/
theorem lspStep_respond_found (s : BridgeState) (i v R : Nat)
    (hfind : s.pending.find? (fun p => decide (p.1 = i)) = some (i, R)) :
    lspStep s (LspEvent.respond i v)
      = if s.revision = R then
          { s with pending := s.pending.filter (fun p => decide (p.1 ≠ i)),
                   delivered := (i, v, R) :: s.delivered,
                   resultCache := (i, v, R) :: s.resultCache }
        else { s with pending := s.pending.filter (fun p => decide (p.1 ≠ i)) } := by
  simp only [lspStep]
  split
  · rename_i heq
    rw [hfind] at heq
    exact Option.noConfusion heq
  · rename_i pr heq
    rw [hfind] at heq
    injection heq with h1
    cases h1
    rfl

/-- C1: a semantic request issued at revision `R` and answered after a
trace of events that contains no other event for the same request id:
if an edit occurred in between (so the revision was bumped), the
response is discarded — nothing is delivered and nothing is written to
the result cache; if no edit intervened, the response is delivered to
the caller and written into the cache tagged with revision `R`. -/
theorem stale_response_discarded_fresh_delivered (s0 : BridgeState) (i v : Nat)
    (es : List LspEvent)
    (hes : ∀ e ∈ es, (∀ w : Nat, e ≠ LspEvent.respond i w) ∧ e ≠ LspEvent.issue i) :
    (LspEvent.edit ∈ es →
      (lspStep (lspRun (lspStep s0 (LspEvent.issue i)) es) (LspEvent.respond i v)).delivered
          = (lspRun (lspStep s0 (LspEvent.issue i)) es).delivered ∧
        (lspStep (lspRun (lspStep s0 (LspEvent.issue i)) es) (LspEvent.respond i v)).resultCache
          = (lspRun (lspStep s0 (LspEvent.issue i)) es).resultCache) ∧
    (LspEvent.edit ∉ es →
      (lspStep (lspRun (lspStep s0 (LspEvent.issue i)) es) (LspEvent.respond i v)).delivered
          = (i, v, s0.revision) :: (lspRun (lspStep s0 (LspEvent.issue i)) es).delivered ∧
        (lspStep (lspRun (lspStep s0 (LspEvent.issue i)) es) (LspEvent.respond i v)).resultCache
          = (i, v, s0.revision)
              :: (lspRun (lspStep s0 (LspEvent.issue i)) es).resultCache) := by
  have hs1 : (lspStep s0 (LspEvent.issue i)).pending.find? (fun p => decide (p.1 = i))
      = some (i, s0.revision) := by
    show ((i, s0.revision) :: s0.pending).find? (fun p => decide (p.1 = i))
      = some (i, s0.revision)
    rw [List.find?_cons_of_pos _ (by simp)]
  have hs1rev : (lspStep s0 (LspEvent.issue i)).revision = s0.revision := rfl
  have hfind := lspRun_pending_find i s0.revision es (lspStep s0 (LspEvent.issue i)) hes hs1
  constructor
  · intro hedit
    have hrev : s0.revision < (lspRun (lspStep s0 (LspEvent.issue i)) es).revision := by
      have := lspRun_revision_edit es (lspStep s0 (LspEvent.issue i)) hedit
      omega
    have hne : (lspRun (lspStep s0 (LspEvent.issue i)) es).revision ≠ s0.revision := by omega
    rw [lspStep_respond_found _ i v s0.revision hfind, if_neg hne]
    exact ⟨rfl, rfl⟩
  · intro hnoedit
    have hrev : (lspRun (lspStep s0 (LspEvent.issue i)) es).revision = s0.revision := by
      rw [lspRun_revision_no_edit es (lspStep s0 (LspEvent.issue i)) hnoedit, hs1rev]
    rw [lspStep_respond_found _ i v s0.revision hfind, if_pos hrev]
    exact ⟨rfl, rfl⟩

/-- C1 witness: a concrete request, one intervening edit discards the
response; with no intervening events the response is delivered. -/
theorem stale_response_discarded_fresh_delivered_witness :
    (LspEvent.edit ∈ [LspEvent.edit] ∧
      (lspStep (lspRun (lspStep ⟨0, [], [], []⟩ (LspEvent.issue 1)) [LspEvent.edit])
          (LspEvent.respond 1 7)).delivered
        = (lspRun (lspStep ⟨0, [], [], []⟩ (LspEvent.issue 1)) [LspEvent.edit]).delivered) ∧
    (LspEvent.edit ∉ ([] : List LspEvent) ∧
      (lspStep (lspRun (lspStep ⟨0, [], [], []⟩ (LspEvent.issue 1)) [])
          (LspEvent.respond 1 7)).delivered
        = (1, 7, 0) :: (lspRun (lspStep ⟨0, [], [], []⟩ (LspEvent.issue 1)) []).delivered) := by
  constructor
  · refine ⟨by decide, ?_⟩
    exact ((stale_response_discarded_fresh_delivered ⟨0, [], [], []⟩ 1 7 [LspEvent.edit]
      (by intro e he; refine ⟨fun w => ?_, ?_⟩ <;> simp at he <;> simp [he])).1
      (by decide)).1
  · refine ⟨by decide, ?_⟩
    exact ((stale_response_discarded_fresh_delivered ⟨0, [], [], []⟩ 1 7 []
      (by intro e he; exact absurd he (List.not_mem_nil e))).2
      (by decide)).1

/-! ## findSymbol (C7)

`LspDocument::findSymbol(name, options)` (implementation not under
src/) is modelled from spec §4.3: a linear scan over the symbol list in
document order, honoring the case-sensitivity and whole-word options.
-/

/-- The match options of `findSymbol`. -/
structure FindOptions where
  caseSensitive : Bool
  wholeWords : Bool
  deriving DecidableEq

/-- Does `target` start with `ps`? -/
def startsWithSeq : List Char → List Char → Bool
  | [], _ => true
  | _ :: _, [] => false
  | p :: ps, t :: ts => p = t && startsWithSeq ps ts

/-- Does `target` contain `ps` as a contiguous subsequence? -/
def containsSeq (ps : List Char) : List Char → Bool
  | [] => startsWithSeq ps []
  | t :: ts => startsWithSeq ps (t :: ts) || containsSeq ps ts

/-- Modelled from the spec: the per-symbol name test of `findSymbol`,
honoring the case-sensitivity option (names are lowercased before
comparison when insensitive) and the whole-word option (whole word:
the full name must match; otherwise a substring match suffices). -/
def nameMatches (opts : FindOptions) (pattern target : List Char) : Bool :=
  let p := if opts.caseSensitive then pattern else pattern.map Char.toLower
  let t := if opts.caseSensitive then target else target.map Char.toLower
  if opts.wholeWords then p = t else containsSeq p t

/-- Modelled from the spec: `findSymbol(name, matchOptions)` performs a
linear scan of the symbol list (document order) and returns the first
symbol whose name matches (spec §4.3); the `LspDocument::findSymbol`
implementation is not under src/. -/
def findSymbol (syms : List Symbol) (pattern : List Char) (opts : FindOptions) :
    Option Symbol :=
  syms.find? (fun s => nameMatches opts pattern s.name)

theorem find?_eq_head?_filter {α : Type} (p : α → Bool) (l : List α) :
    l.find? p = (l.filter p).head? := by
  induction l with
  | nil => rfl
  | cons x xs ih =>
    by_cases hp : p x = true
    · rw [List.find?_cons_of_pos _ hp, List.filter_cons_of_pos hp]
      rfl
    · rw [List.find?_cons_of_neg _ hp, List.filter_cons_of_neg hp]
      exact ih

/-- C7: `findSymbol` returns exactly the head of the list of matching
symbols in document order (so with several matches, the first one); a
returned symbol matches under the given options, and `none` is returned
only when no symbol matches. -/
theorem findSymbol_first_match (syms : List Symbol) (pattern : List Char)
    (opts : FindOptions) :
    findSymbol syms pattern opts
        = (syms.filter (fun s => nameMatches opts pattern s.name)).head? ∧
      (∀ s, findSymbol syms pattern opts = some s → nameMatches opts pattern s.name = true) ∧
      (findSymbol syms pattern opts = none →
        ∀ s ∈ syms, nameMatches opts pattern s.name = false) := by
  refine ⟨find?_eq_head?_filter _ syms, ?_, ?_⟩
  · intro s hs
    exact @List.find?_some Symbol (fun s => nameMatches opts pattern s.name) s syms hs
  · intro hnone s hs
    have := List.find?_eq_none.mp hnone s hs
    cases hm : nameMatches opts pattern s.name
    · rfl
    · exact absurd hm this

/-- C7 witness: two symbols named `a` and `b`; searching `b` returns
the second symbol, and the first symbol of the list does not match. -/
theorem findSymbol_first_match_witness :
    findSymbol [⟨['a'], 0, ⟨0, 10⟩⟩, ⟨['b'], 0, ⟨11, 21⟩⟩] ['b'] ⟨true, true⟩
        = some ⟨['b'], 0, ⟨11, 21⟩⟩ ∧
      nameMatches ⟨true, true⟩ ['b'] ['b'] = true :=
  ⟨by decide,
    (findSymbol_first_match [⟨['a'], 0, ⟨0, 10⟩⟩, ⟨['b'], 0, ⟨11, 21⟩⟩] ['b'] ⟨true, true⟩).2.1
      ⟨['b'], 0, ⟨11, 21⟩⟩ (by decide)⟩

/-! ## Symbol nesting (C6)

`TreeSitterHelper::assignSymbolContexts` (implementation not under
src/) is modelled from spec §4.3: symbols are sorted by range start (a
syntax tree yields ranges that are pairwise nested or disjoint, outer
symbols first on equal starts); a single linear pass keeps a stack of
"currently open" symbols, pops every stack entry whose range ends
before the new symbol starts, and assigns the top of the stack as the
new symbol's parent.  Parents are represented as indices into the flat
list, as the spec's design notes prescribe.
-/

/-- Pop every open symbol whose range ends at or before position `s`. -/
def popStack (stack : List (Nat × SRange)) (s : Nat) : List (Nat × SRange) :=
  stack.dropWhile (fun e => decide (e.2.stop ≤ s))

/-- Modelled from the spec: the stack of currently open symbols just
before the `i`-th symbol of the sorted list is processed (spec §4.3
single linear pass; the `assignSymbolContexts` implementation is not in
src/). -/
def stackAt (rs : List SRange) : Nat → List (Nat × SRange)
  | 0 => []
  | i + 1 =>
    match rs.get? i with
    | none => stackAt rs i
    | some r => (i, r) :: popStack (stackAt rs i) r.start

/-- Modelled from the spec: the parent (index into the flat symbol
list) assigned to the `i`-th symbol: the top of the stack after popping
the symbols that ended before it starts. -/
def parentOf (rs : List SRange) (i : Nat) : Option Nat :=
  match rs.get? i with
  | none => none
  | some r => (popStack (stackAt rs i) r.start).head?.map Prod.fst

/-- Modelled from the spec: the full parent assignment of
`assignSymbolContexts`, one entry per symbol. -/
def assignSymbolContexts (rs : List SRange) : List (Option Nat) :=
  (List.range rs.length).map (parentOf rs)

theorem stackAt_succ_none (rs : List SRange) (i : Nat) (hg : rs.get? i = none) :
    stackAt rs (i + 1) = stackAt rs i := by
  show (match rs.get? i with
    | none => stackAt rs i
    | some r => (i, r) :: popStack (stackAt rs i) r.start) = stackAt rs i
  rw [hg]

theorem stackAt_succ_some (rs : List SRange) (i : Nat) (r : SRange)
    (hg : rs.get? i = some r) :
    stackAt rs (i + 1) = (i, r) :: popStack (stackAt rs i) r.start := by
  show (match rs.get? i with
    | none => stackAt rs i
    | some r => (i, r) :: popStack (stackAt rs i) r.start)
      = (i, r) :: popStack (stackAt rs i) r.start
  rw [hg]

theorem parentOf_eq_some (rs : List SRange) (i : Nat) (r : SRange)
    (hg : rs.get? i = some r) :
    parentOf rs i = (popStack (stackAt rs i) r.start).head?.map Prod.fst := by
  show (match rs.get? i with
    | none => none
    | some r => (popStack (stackAt rs i) r.start).head?.map Prod.fst)
      = (popStack (stackAt rs i) r.start).head?.map Prod.fst
  rw [hg]

theorem head?_some_mem {α : Type} (l : List α) (x : α) (h : l.head? = some x) : x ∈ l := by
  cases l with
  | nil => cases h
  | cons a t =>
    injection h with h1
    subst h1
    exact List.mem_cons_self _ _

theorem dropWhile_head_false {α : Type} (p : α → Bool) :
    ∀ (l : List α) (x : α) (xs : List α), l.dropWhile p = x :: xs → p x = false := by
  intro l
  induction l with
  | nil =>
    intro x xs h
    exact absurd h (by simp)
  | cons a l' ih =>
    intro x xs h
    by_cases hp : p a = true
    · rw [List.dropWhile_cons_of_pos hp] at h
      exact ih x xs h
    · rw [List.dropWhile_cons_of_neg hp] at h
      injection h with h1 _
      subst h1
      cases hpa : p a
      · rfl
      · exact absurd hpa hp

theorem mem_takeWhile_of_not_mem_dropWhile {α : Type} (p : α → Bool) (l : List α) (x : α)
    (hx : x ∈ l) (hnd : x ∉ l.dropWhile p) : x ∈ l.takeWhile p := by
  have halt := List.takeWhile_append_dropWhile p l
  rw [← halt] at hx
  rcases List.mem_append.mp hx with h | h
  · exact h
  · exact absurd h hnd

theorem pairwise_get? {α : Type} {R : α → α → Prop} (l : List α) (hl : l.Pairwise R)
    (i j : Nat) (a b : α) (hij : i < j) (ha : l.get? i = some a) (hb : l.get? j = some b) :
    R a b := by
  obtain ⟨hi, ha'⟩ := List.get?_eq_some.mp ha
  obtain ⟨hj, hb'⟩ := List.get?_eq_some.mp hb
  have := List.pairwise_iff_get.mp hl ⟨i, hi⟩ ⟨j, hj⟩ hij
  rw [ha', hb'] at this
  exact this

/-- Every stack entry is an earlier symbol with its range. -/
theorem stackAt_mem (rs : List SRange) :
    ∀ i, ∀ e ∈ stackAt rs i, e.1 < i ∧ rs.get? e.1 = some e.2 := by
  intro i
  induction i with
  | zero =>
    intro e he
    exact absurd he (List.not_mem_nil e)
  | succ i ih =>
    intro e he
    rcases hg : rs.get? i with _ | r
    · rw [stackAt_succ_none rs i hg] at he
      have h := ih e he
      exact ⟨Nat.lt_succ_of_lt h.1, h.2⟩
    · rw [stackAt_succ_some rs i r hg] at he
      rcases List.mem_cons.mp he with h | h
      · subst h
        exact ⟨Nat.lt_succ_self i, hg⟩
      · have hmem : e ∈ stackAt rs i :=
          List.Sublist.mem h (List.dropWhile_sublist _)
        have h2 := ih e hmem
        exact ⟨Nat.lt_succ_of_lt h2.1, h2.2⟩

/-- Stack indices strictly decrease from the top down. -/
theorem stackAt_pairwise_idx (rs : List SRange) :
    ∀ i, (stackAt rs i).Pairwise (fun a b => b.1 < a.1) := by
  intro i
  induction i with
  | zero => exact List.Pairwise.nil
  | succ i ih =>
    rcases hg : rs.get? i with _ | r
    · rw [stackAt_succ_none rs i hg]
      exact ih
    · rw [stackAt_succ_some rs i r hg]
      rw [List.pairwise_cons]
      constructor
      · intro e he
        have hmem : e ∈ stackAt rs i :=
          List.Sublist.mem he (List.dropWhile_sublist _)
        exact (stackAt_mem rs i e hmem).1
      · exact List.Pairwise.sublist (List.dropWhile_sublist _) ih

/-- A symbol that is no longer on the stack was popped by some later
symbol that starts at or after its end. -/
theorem stackAt_popped (rs : List SRange) :
    ∀ i j rj, j < i → rs.get? j = some rj →
      (∀ e ∈ stackAt rs i, e.1 ≠ j) →
      ∃ m rm, j < m ∧ m < i ∧ rs.get? m = some rm ∧ rj.stop ≤ rm.start := by
  intro i
  induction i with
  | zero =>
    intro j rj hj
    exact absurd hj (Nat.not_lt_zero j)
  | succ i ih =>
    intro j rj hj hget hnot
    rcases hg : rs.get? i with _ | r
    · rw [stackAt_succ_none rs i hg] at hnot
      have hji : j ≠ i := by
        intro h
        subst h
        rw [hget] at hg
        exact Option.noConfusion hg
      have hj' : j < i := by omega
      obtain ⟨m, rm, h1, h2, h3, h4⟩ := ih j rj hj' hget hnot
      exact ⟨m, rm, h1, Nat.lt_succ_of_lt h2, h3, h4⟩
    · rw [stackAt_succ_some rs i r hg] at hnot
      have hji : j ≠ i :=
        fun h => (hnot (i, r) (List.mem_cons_self _ _)) h.symm
      have hj' : j < i := by omega
      by_cases hex : ∃ e ∈ stackAt rs i, e.1 = j
      · obtain ⟨e, hmem, hej⟩ := hex
        have hnd : e ∉ popStack (stackAt rs i) r.start := fun hin =>
          (hnot e (List.mem_cons_of_mem _ hin)) hej
        have htw : e ∈ (stackAt rs i).takeWhile (fun e => decide (e.2.stop ≤ r.start)) :=
          mem_takeWhile_of_not_mem_dropWhile _ _ e hmem hnd
        have hle : e.2.stop ≤ r.start := of_decide_eq_true
          (@List.mem_takeWhile_imp (Nat × SRange) (fun e => decide (e.2.stop ≤ r.start))
            (stackAt rs i) e htw)
        have hej2 : e.2 = rj := by
          have h2 := (stackAt_mem rs i e hmem).2
          rw [hej, hget] at h2
          exact (Option.some.inj h2).symm
        rw [hej2] at hle
        exact ⟨i, r, hj', Nat.lt_succ_self i, hg, hle⟩
      · push_neg at hex
        obtain ⟨m, rm, h1, h2, h3, h4⟩ := ih j rj hj' hget hex
        exact ⟨m, rm, h1, Nat.lt_succ_of_lt h2, h3, h4⟩

/-- An assigned parent is an earlier symbol. -/
theorem parentOf_lt (rs : List SRange) (i j : Nat) (hp : parentOf rs i = some j) : j < i := by
  rcases hg : rs.get? i with _ | r
  · have : parentOf rs i = none := by
      show (match rs.get? i with
        | none => none
        | some r => (popStack (stackAt rs i) r.start).head?.map Prod.fst) = none
      rw [hg]
    rw [this] at hp
    exact Option.noConfusion hp
  · rw [parentOf_eq_some rs i r hg] at hp
    obtain ⟨e, hhead, hej⟩ := Option.map_eq_some'.mp hp
    have hmem' : e ∈ popStack (stackAt rs i) r.start := head?_some_mem _ e hhead
    have hmem : e ∈ stackAt rs i :=
      List.Sublist.mem hmem' (List.dropWhile_sublist _)
    have h := (stackAt_mem rs i e hmem).1
    rw [hej] at h
    exact h

/-- The assigned parent's range contains the child's range. -/
theorem parentOf_contains (rs : List SRange)
    (hsorted : rs.Pairwise (fun a b => a.start ≤ b.start))
    (hnested : rs.Pairwise (fun a b => b.start < a.stop → b.stop ≤ a.stop))
    (i j : Nat) (ri : SRange) (hi : rs.get? i = some ri) (hp : parentOf rs i = some j) :
    ∃ rj, rs.get? j = some rj ∧ rj.start ≤ ri.start ∧ ri.stop ≤ rj.stop := by
  rw [parentOf_eq_some rs i ri hi] at hp
  obtain ⟨e, hhead, hej⟩ := Option.map_eq_some'.mp hp
  have hmem' : e ∈ popStack (stackAt rs i) ri.start := head?_some_mem _ e hhead
  have hmem : e ∈ stackAt rs i :=
    List.Sublist.mem hmem' (List.dropWhile_sublist _)
  obtain ⟨hlt, hget⟩ := stackAt_mem rs i e hmem
  obtain ⟨t, ht⟩ : ∃ t, popStack (stackAt rs i) ri.start = e :: t := by
    rcases hq : popStack (stackAt rs i) ri.start with _ | ⟨a, t⟩
    · rw [hq] at hhead
      exact Option.noConfusion hhead
    · rw [hq] at hhead
      injection hhead with h1
      subst h1
      exact ⟨t, rfl⟩
  have hpred := dropWhile_head_false _ _ e t ht
  have hopen : ri.start < e.2.stop := by
    have hne := of_decide_eq_false hpred
    omega
  have hstart : e.2.start ≤ ri.start :=
    pairwise_get? rs hsorted e.1 i e.2 ri hlt hget hi
  have hstop : ri.stop ≤ e.2.stop :=
    pairwise_get? rs hnested e.1 i e.2 ri hlt hget hi hopen
  rw [hej] at hget
  exact ⟨e.2, hget, hstart, hstop⟩

/-- Symbols assigned the same parent do not overlap. -/
theorem parentOf_siblings_disjoint (rs : List SRange)
    (hsorted : rs.Pairwise (fun a b => a.start ≤ b.start))
    (i k : Nat) (ri rk : SRange) (hik : i < k)
    (hi : rs.get? i = some ri) (hk : rs.get? k = some rk)
    (hpar : parentOf rs i = parentOf rs k) :
    ri.stop ≤ rk.start := by
  have hnotin : ∀ e ∈ popStack (stackAt rs k) rk.start, e.1 ≠ i := by
    intro e he hei
    obtain ⟨h, t, hht⟩ : ∃ h t, popStack (stackAt rs k) rk.start = h :: t := by
      rcases hq : popStack (stackAt rs k) rk.start with _ | ⟨h, t⟩
      · rw [hq] at he
        exact absurd he (List.not_mem_nil e)
      · exact ⟨h, t, rfl⟩
    have hpk : parentOf rs k = some h.1 := by
      rw [parentOf_eq_some rs k rk hk, hht]
      rfl
    have hpi : parentOf rs i = some h.1 := by
      rw [hpar]
      exact hpk
    have hlt : h.1 < i := parentOf_lt rs i h.1 hpi
    rw [hht] at he
    rcases List.mem_cons.mp he with he1 | he2
    · subst he1
      omega
    · have hpw : (h :: t).Pairwise (fun a b => b.1 < a.1) := by
        rw [← hht]
        exact List.Pairwise.sublist (List.dropWhile_sublist _) (stackAt_pairwise_idx rs k)
      have := (List.pairwise_cons.mp hpw).1 e he2
      omega
  by_cases hex : ∃ e ∈ stackAt rs k, e.1 = i
  · obtain ⟨e, hmem, hei⟩ := hex
    have hnd : e ∉ popStack (stackAt rs k) rk.start := fun hin => (hnotin e hin) hei
    have htw : e ∈ (stackAt rs k).takeWhile (fun e => decide (e.2.stop ≤ rk.start)) :=
      mem_takeWhile_of_not_mem_dropWhile _ _ e hmem hnd
    have hle : e.2.stop ≤ rk.start := of_decide_eq_true
      (@List.mem_takeWhile_imp (Nat × SRange) (fun e => decide (e.2.stop ≤ rk.start))
        (stackAt rs k) e htw)
    have hei2 : e.2 = ri := by
      have h2 := (stackAt_mem rs k e hmem).2
      rw [hei, hi] at h2
      exact (Option.some.inj h2).symm
    rw [hei2] at hle
    exact hle
  · push_neg at hex
    obtain ⟨m, rm, h1, h2, h3, h4⟩ := stackAt_popped rs k i ri hik hi hex
    have h5 : rm.start ≤ rk.start := pairwise_get? rs hsorted m k rm rk h2 h3 hk
    omega

/-- Ancestor relation generated by the parent assignment. -/
inductive IsAncestor (rs : List SRange) : Nat → Nat → Prop where
  | parent : ∀ {i j : Nat}, parentOf rs i = some j → IsAncestor rs j i
  | ancestorOfParent : ∀ {i j a : Nat},
      parentOf rs i = some j → IsAncestor rs a j → IsAncestor rs a i

theorem assignSymbolContexts_get (rs : List SRange) (i : Nat) (h : i < rs.length) :
    (assignSymbolContexts rs).get? i = some (parentOf rs i) := by
  show ((List.range rs.length).map (parentOf rs)).get? i = some (parentOf rs i)
  rw [List.get?_map, List.get?_range h]
  rfl

/-- C6: for symbols derived from a syntax tree (listed in document
order: sorted by range start, ranges pairwise nested or disjoint, outer
symbol first), the parent assignment of the single-pass stack algorithm
satisfies the nesting invariant: every symbol's range wholly contains
the range of each of its descendants, and the ranges of two symbols
with the same parent never overlap.  The `assignSymbolContexts` output
lists exactly these parents. -/
theorem symbol_nesting_invariant (rs : List SRange)
    (hsorted : rs.Pairwise (fun a b => a.start ≤ b.start))
    (hnested : rs.Pairwise (fun a b => b.start < a.stop → b.stop ≤ a.stop)) :
    (∀ a i ri, IsAncestor rs a i → rs.get? i = some ri →
      ∃ ra, rs.get? a = some ra ∧ ra.start ≤ ri.start ∧ ri.stop ≤ ra.stop) ∧
    (∀ i k ri rk, i < k → rs.get? i = some ri → rs.get? k = some rk →
      parentOf rs i = parentOf rs k → ri.stop ≤ rk.start) ∧
    (∀ i, i < rs.length → (assignSymbolContexts rs).get? i = some (parentOf rs i)) := by
  refine ⟨?_, ?_, fun i h => assignSymbolContexts_get rs i h⟩
  · intro a i ri hanc
    induction hanc generalizing ri with
    | parent hp =>
      intro hi
      exact parentOf_contains rs hsorted hnested _ _ ri hi hp
    | ancestorOfParent hp _ ih =>
      intro hi
      obtain ⟨rj, hj, hj1, hj2⟩ := parentOf_contains rs hsorted hnested _ _ ri hi hp
      obtain ⟨ra, ha, ha1, ha2⟩ := ih rj hj
      exact ⟨ra, ha, le_trans ha1 hj1, le_trans hj2 ha2⟩
  · intro i k ri rk hik hi hk hpar
    exact parentOf_siblings_disjoint rs hsorted i k ri rk hik hi hk hpar

/-- C6 witness: three symbols (an outer one containing two disjoint
children); the parent's range contains the first child's range, and
the two siblings are disjoint. -/
theorem symbol_nesting_invariant_witness :
    (([⟨0, 10⟩, ⟨0, 4⟩, ⟨5, 9⟩] : List SRange).Pairwise (fun a b => a.start ≤ b.start) ∧
      ([⟨0, 10⟩, ⟨0, 4⟩, ⟨5, 9⟩] : List SRange).Pairwise
        (fun a b => b.start < a.stop → b.stop ≤ a.stop)) ∧
    (∃ ra : SRange, ([⟨0, 10⟩, ⟨0, 4⟩, ⟨5, 9⟩] : List SRange).get? 0 = some ra ∧
      ra.start ≤ (0 : Nat) ∧ (4 : Nat) ≤ ra.stop) ∧
    (4 : Nat) ≤ (5 : Nat) := by
  refine ⟨⟨by decide, by decide⟩, ?_, ?_⟩
  · exact (symbol_nesting_invariant [⟨0, 10⟩, ⟨0, 4⟩, ⟨5, 9⟩] (by decide) (by decide)).1
      0 1 ⟨0, 4⟩ (IsAncestor.parent (by decide)) (by decide)
  · exact (symbol_nesting_invariant [⟨0, 10⟩, ⟨0, 4⟩, ⟨5, 9⟩] (by decide) (by decide)).2.1
      1 2 ⟨0, 4⟩ ⟨5, 9⟩ (by decide) (by decide) (by decide) (by decide)

/-! ## Incremental reparse (C5)

The tree-sitter parser used behind `TreeSitterHelper::parser` /
`syntaxTree` is not part of the source snapshot; the incremental
reparse contract of spec §4.2 is modelled on a line grammar: one
production per line of the document, a full parse is the list of line
nodes, and an incremental reparse reuses the line nodes before and
after the byte range touched by the edit delta and re-parses only the
touched region.
-/

def consHead (c : Char) : List (List Char) → List (List Char)
  | [] => [[c]]
  | l :: ls => (c :: l) :: ls

/-- Modelled from the spec: the full parse of spec §4.2 over the line
grammar — the document's list of line nodes (split at `'\n'`). -/
def splitLines : List Char → List (List Char)
  | [] => [[]]
  | c :: rest => if c = '\n' then [] :: splitLines rest else consHead c (splitLines rest)

theorem splitLines_cons_nl (rest : List Char) :
    splitLines ('\n' :: rest) = [] :: splitLines rest := by
  simp [splitLines]

theorem splitLines_cons_other {c : Char} (hc : c ≠ '\n') (rest : List Char) :
    splitLines (c :: rest) = consHead c (splitLines rest) := by
  simp [splitLines, hc]

theorem splitLines_ne_nil (l : List Char) : splitLines l ≠ [] := by
  cases l with
  | nil => simp [splitLines]
  | cons c rest =>
    by_cases hc : c = '\n'
    · simp [splitLines, hc]
    · rw [splitLines_cons_other hc]
      cases splitLines rest with
      | nil => simp [consHead]
      | cons x xs => simp [consHead]

theorem splitLines_length (l : List Char) : (splitLines l).length = countNL l + 1 := by
  induction l with
  | nil => rfl
  | cons c rest ih =>
    by_cases hc : c = '\n'
    · subst hc
      rw [splitLines_cons_nl]
      show (splitLines rest).length + 1 = countNL ('\n' :: rest) + 1
      rw [ih]
      show countNL rest + 1 + 1 = 1 + countNL rest + 1
      omega
    · rw [splitLines_cons_other hc]
      show (consHead c (splitLines rest)).length = countNL (c :: rest) + 1
      have hcnt : countNL (c :: rest) = countNL rest := by
        show (if c = '\n' then 1 else 0) + countNL rest = countNL rest
        rw [if_neg hc]
        omega
      rw [hcnt]
      cases hs : splitLines rest with
      | nil => exact absurd hs (splitLines_ne_nil rest)
      | cons x xs =>
        show ((c :: x) :: xs).length = countNL rest + 1
        rw [hs] at ih
        simpa using ih

/-- Merge two line lists across a concatenation boundary: the last
line of the first list joins the first line of the second. -/
def glue (xs ys : List (List Char)) : List (List Char) :=
  match ys with
  | [] => xs
  | y :: yt => xs.dropLast ++ (xs.getLastD [] ++ y) :: yt

theorem glue_cons_cons (x x2 : List Char) (xt ys : List (List Char)) :
    glue (x :: x2 :: xt) ys = x :: glue (x2 :: xt) ys := by
  cases ys with
  | nil => rfl
  | cons y yt =>
    show (x :: x2 :: xt).dropLast ++ ((x :: x2 :: xt).getLastD [] ++ y) :: yt
      = x :: ((x2 :: xt).dropLast ++ ((x2 :: xt).getLastD [] ++ y) :: yt)
    rfl

theorem splitLines_append (X Y : List Char) :
    splitLines (X ++ Y) = glue (splitLines X) (splitLines Y) := by
  induction X with
  | nil =>
    show splitLines Y = glue [[]] (splitLines Y)
    cases hs : splitLines Y with
    | nil => exact absurd hs (splitLines_ne_nil Y)
    | cons y yt => simp [glue]
  | cons c X' ih =>
    by_cases hc : c = '\n'
    · subst hc
      rw [List.cons_append, splitLines_cons_nl, splitLines_cons_nl, ih]
      cases hsx : splitLines X' with
      | nil => exact absurd hsx (splitLines_ne_nil X')
      | cons x xt => exact (glue_cons_cons [] x xt (splitLines Y)).symm
    · rw [List.cons_append, splitLines_cons_other hc, splitLines_cons_other hc, ih]
      cases hsx : splitLines X' with
      | nil => exact absurd hsx (splitLines_ne_nil X')
      | cons x xt =>
        cases xt with
        | nil =>
          cases hsy : splitLines Y with
          | nil => exact absurd hsy (splitLines_ne_nil Y)
          | cons y yt => simp [glue, consHead]
        | cons x2 xt' =>
          rw [glue_cons_cons x x2 xt' (splitLines Y)]
          show consHead c (x :: glue (x2 :: xt') (splitLines Y))
            = glue ((c :: x) :: x2 :: xt') (splitLines Y)
          rw [glue_cons_cons (c :: x) x2 xt' (splitLines Y)]
          rfl

theorem countNL_pos_of_last_nl (l : List Char) (h : l.getLast? = some '\n') :
    1 ≤ countNL l := by
  have hmem : '\n' ∈ l := List.mem_of_mem_getLast? (by simp [h])
  induction l with
  | nil => exact absurd hmem (List.not_mem_nil _)
  | cons c rest ih =>
    show 1 ≤ (if c = '\n' then 1 else 0) + countNL rest
    by_cases hc : c = '\n'
    · rw [if_pos hc]
      omega
    · rcases List.mem_cons.mp hmem with h1 | h1
      · exact absurd h1.symm hc
      · have := ih (by
          cases rest with
          | nil => exact absurd h1 (List.not_mem_nil _)
          | cons r rest' =>
            rw [List.getLast?_cons_cons] at h
            exact h) h1
        omega

/-- A document that is empty or ends in a newline splits into complete
lines followed by one trailing empty line. -/
theorem splitLines_complete (X : List Char) (h : X = [] ∨ X.getLast? = some '\n') :
    ∃ L, splitLines X = L ++ [[]] := by
  induction X with
  | nil => exact ⟨[], rfl⟩
  | cons c rest ih =>
    rcases h with h | h
    · exact absurd h (by simp)
    · by_cases hrn : rest = []
      · subst hrn
        have hc : c = '\n' := by
          simp only [List.getLast?_singleton] at h
          exact Option.some.inj h
        subst hc
        exact ⟨[[]], by rw [splitLines_cons_nl]; rfl⟩
      · have hlast : rest.getLast? = some '\n' := by
          obtain ⟨r, rest', hr⟩ := List.exists_cons_of_ne_nil hrn
          rw [hr] at h
          rw [hr]
          rw [List.getLast?_cons_cons] at h
          exact h
        obtain ⟨L, hL⟩ := ih (Or.inr hlast)
        by_cases hc : c = '\n'
        · subst hc
          rw [splitLines_cons_nl, hL]
          exact ⟨[] :: L, rfl⟩
        · rw [splitLines_cons_other hc, hL]
          cases L with
          | nil =>
            exfalso
            have hlen := splitLines_length rest
            rw [hL] at hlen
            have hpos := countNL_pos_of_last_nl rest hlast
            simp at hlen
            omega
          | cons l0 L' =>
            exact ⟨(c :: l0) :: L', by simp [consHead]⟩

/-- Splitting across a boundary that ends a line: the complete lines of
the first part, then the lines of the rest. -/
theorem splitLines_append_complete (X Y : List Char)
    (h : X = [] ∨ X.getLast? = some '\n') :
    splitLines (X ++ Y) = (splitLines X).dropLast ++ splitLines Y := by
  obtain ⟨L, hL⟩ := splitLines_complete X h
  rw [splitLines_append, hL]
  cases hsy : splitLines Y with
  | nil => exact absurd hsy (splitLines_ne_nil Y)
  | cons y yt =>
    show glue (L ++ [[]]) (y :: yt) = (L ++ [[]]).dropLast ++ y :: yt
    show (L ++ [[]]).dropLast ++ ((L ++ [[]]).getLastD [] ++ y) :: yt
      = (L ++ [[]]).dropLast ++ y :: yt
    rw [List.getLastD_concat]
    rfl

/-- Start offset of the line containing position `p` (the last line
boundary at or before `p`). -/
def lineStartBelow : List Char → Nat → Nat
  | _, 0 => 0
  | [], _ + 1 => 0
  | c :: rest, p + 1 =>
    if c = '\n' then 1 + lineStartBelow rest p
    else if lineStartBelow rest p = 0 then 0 else 1 + lineStartBelow rest p

theorem lsb_zero (l : List Char) : lineStartBelow l 0 = 0 := by
  cases l <;> rfl

theorem lsb_nil (p : Nat) : lineStartBelow [] p = 0 := by
  cases p <;> rfl

theorem lsb_cons_nl (rest : List Char) (p : Nat) :
    lineStartBelow ('\n' :: rest) (p + 1) = 1 + lineStartBelow rest p := by
  simp [lineStartBelow]

theorem lsb_cons_other {c : Char} (hc : c ≠ '\n') (rest : List Char) (p : Nat) :
    lineStartBelow (c :: rest) (p + 1)
      = if lineStartBelow rest p = 0 then 0 else 1 + lineStartBelow rest p := by
  simp [lineStartBelow, hc]

theorem lsb_le_pos (l : List Char) : ∀ p : Nat, lineStartBelow l p ≤ p := by
  induction l with
  | nil =>
    intro p
    rw [lsb_nil]
    omega
  | cons c rest ih =>
    intro p
    cases p with
    | zero =>
      rw [lsb_zero]
    | succ p =>
      by_cases hc : c = '\n'
      · subst hc
        rw [lsb_cons_nl]
        have := ih p
        omega
      · rw [lsb_cons_other hc]
        by_cases h0 : lineStartBelow rest p = 0
        · rw [if_pos h0]
          omega
        · rw [if_neg h0]
          have := ih p
          omega

/-- The prefix up to a line start consists of complete lines. -/
theorem lsb_take_complete (l : List Char) :
    ∀ p : Nat, l.take (lineStartBelow l p) = []
      ∨ (l.take (lineStartBelow l p)).getLast? = some '\n' := by
  induction l with
  | nil =>
    intro p
    rw [lsb_nil]
    exact Or.inl rfl
  | cons c rest ih =>
    intro p
    cases p with
    | zero =>
      rw [lsb_zero]
      exact Or.inl rfl
    | succ p =>
      by_cases hc : c = '\n'
      · subst hc
        rw [lsb_cons_nl]
        rcases hs : lineStartBelow rest p with _ | n
        · exact Or.inr (by rfl)
        · have hrest_ne : rest ≠ [] := by
            intro hr
            rw [hr, lsb_nil] at hs
            exact Nat.noConfusion hs
          obtain ⟨r, rest', hr⟩ := List.exists_cons_of_ne_nil hrest_ne
          rcases ih p with h | h
          · rw [hs] at h
            rw [hr] at h
            exact absurd h (by simp)
          · rw [hs] at h
            refine Or.inr ?_
            rw [show (1 : Nat) + (n + 1) = (n + 1) + 1 from by omega]
            show (('\n' :: rest).take ((n + 1) + 1)).getLast? = some '\n'
            rw [show (('\n' :: rest).take ((n + 1) + 1)) = '\n' :: rest.take (n + 1) from rfl]
            obtain ⟨t, ts, hts⟩ : ∃ t ts, rest.take (n + 1) = t :: ts := by
              rw [hr]
              exact ⟨r, rest'.take n, rfl⟩
            rw [hts]
            rw [hts] at h
            rw [List.getLast?_cons_cons]
            exact h
      · rw [lsb_cons_other hc]
        by_cases h0 : lineStartBelow rest p = 0
        · rw [if_pos h0]
          exact Or.inl rfl
        · rw [if_neg h0]
          have hrest_ne : rest ≠ [] := by
            intro hr
            rw [hr, lsb_nil] at h0
            exact h0 rfl
          obtain ⟨r, rest', hr⟩ := List.exists_cons_of_ne_nil hrest_ne
          rcases ih p with h | h
          · exfalso
            rcases hs : lineStartBelow rest p with _ | n
            · exact h0 hs
            · rw [hs] at h
              rw [hr] at h
              exact absurd h (by simp)
          · refine Or.inr ?_
            show ((c :: rest).take (1 + lineStartBelow rest p)).getLast? = some '\n'
            rcases hs : lineStartBelow rest p with _ | n
            · exact absurd hs h0
            · rw [hs] at h
              rw [show 1 + (n + 1) = (n + 1) + 1 from by omega]
              rw [show ((c :: rest).take ((n + 1) + 1)) = c :: rest.take (n + 1) from rfl]
              obtain ⟨t, ts, hts⟩ : ∃ t ts, rest.take (n + 1) = t :: ts := by
                rw [hr]
                exact ⟨r, rest'.take n, rfl⟩
              rw [hts]
              rw [hts] at h
              rw [List.getLast?_cons_cons]
              exact h

/-- Index of the first `'\n'`. -/
def findNLIdx : List Char → Option Nat
  | [] => none
  | c :: rest => if c = '\n' then some 0 else (findNLIdx rest).map (· + 1)

/-- Index of the first `'\n'` at or after position `q`. -/
def nlAfter (l : List Char) (q : Nat) : Option Nat :=
  (findNLIdx (l.drop q)).map (· + q)

theorem findNLIdx_some (l : List Char) :
    ∀ e : Nat, findNLIdx l = some e → l.get? e = some '\n' := by
  induction l with
  | nil =>
    intro e he
    exact Option.noConfusion he
  | cons c rest ih =>
    intro e he
    by_cases hc : c = '\n'
    · have h0 : findNLIdx (c :: rest) = some 0 := by simp [findNLIdx, hc]
      rw [h0] at he
      injection he with he'
      subst he'
      show some c = some '\n'
      rw [hc]
    · have h1 : findNLIdx (c :: rest) = (findNLIdx rest).map (· + 1) := by
        simp [findNLIdx, hc]
      rw [h1] at he
      obtain ⟨e', he', hee⟩ := Option.map_eq_some'.mp he
      rw [← hee]
      show rest.get? e' = some '\n'
      exact ih e' he'

theorem nlAfter_some (l : List Char) (q e : Nat) (h : nlAfter l q = some e) :
    q ≤ e ∧ l.get? e = some '\n' := by
  obtain ⟨e', he', hee⟩ := Option.map_eq_some'.mp h
  have hget := findNLIdx_some (l.drop q) e' he'
  rw [List.get?_drop] at hget
  constructor
  · omega
  · rw [← hee, Nat.add_comm]
    exact hget

theorem getLast?_take_succ (l : List Char) :
    ∀ (n : Nat) (x : Char), l.get? n = some x → (l.take (n + 1)).getLast? = some x := by
  induction l with
  | nil =>
    intro n x h
    exact Option.noConfusion h
  | cons a l' ih =>
    intro n x h
    cases n with
    | zero =>
      injection h with h'
      subst h'
      show [a].getLast? = some a
      exact List.getLast?_singleton a
    | succ n =>
      have h' : l'.get? n = some x := h
      have hih := ih n x h'
      show (a :: l'.take (n + 1)).getLast? = some x
      obtain ⟨t, ts, hts⟩ : ∃ t ts, l'.take (n + 1) = t :: ts := by
        have hlt : n < l'.length := (List.get?_eq_some.mp h').1
        rcases hq : l'.take (n + 1) with _ | ⟨t, ts⟩
        · exfalso
          have hlen := congrArg List.length hq
          rw [List.length_take, List.length_nil] at hlen
          omega
        · exact ⟨t, ts, rfl⟩
      rw [hts]
      rw [hts] at hih
      rw [List.getLast?_cons_cons]
      exact hih

/-- The EditDelta of spec §3 applied to a document: replace `removed`
characters at `start` by `added`. -/
def applyDelta (old : List Char) (start removed : Nat) (added : List Char) : List Char :=
  old.take start ++ (added ++ old.drop (start + removed))

/-- Modelled from the spec: `SyntaxTree.reparse(previousTree, delta)`
of spec §4.2 over the line grammar: it reuses the line nodes of the
previous tree that lie entirely before the byte range touched by the
delta (before the start of the line containing `startOffset`) and the
line nodes that lie entirely after it (after the first line boundary
past the removed range, shifted), and re-parses only the touched
region.  The tree-sitter incremental parser itself is not under src/. -/
def reparse (prev : List (List Char)) (old : List Char) (start removed : Nat)
    (added : List Char) : List (List Char) :=
  match nlAfter old (start + removed) with
  | none =>
    prev.take (countNL (old.take (lineStartBelow old start)))
      ++ splitLines ((applyDelta old start removed added).drop (lineStartBelow old start))
  | some e =>
    prev.take (countNL (old.take (lineStartBelow old start)))
      ++ (splitLines (((applyDelta old start removed added).take
            (e + 1 + added.length - removed)).drop (lineStartBelow old start))).dropLast
      ++ prev.drop (countNL (old.take (e + 1)))

theorem reparse_none_eq (prev : List (List Char)) (old : List Char) (start removed : Nat)
    (added : List Char) (hn : nlAfter old (start + removed) = none) :
    reparse prev old start removed added
      = prev.take (countNL (old.take (lineStartBelow old start)))
          ++ splitLines ((applyDelta old start removed added).drop (lineStartBelow old start)) := by
  show (match nlAfter old (start + removed) with
    | none =>
      prev.take (countNL (old.take (lineStartBelow old start)))
        ++ splitLines ((applyDelta old start removed added).drop (lineStartBelow old start))
    | some e =>
      prev.take (countNL (old.take (lineStartBelow old start)))
        ++ (splitLines (((applyDelta old start removed added).take
              (e + 1 + added.length - removed)).drop (lineStartBelow old start))).dropLast
        ++ prev.drop (countNL (old.take (e + 1)))) = _
  rw [hn]

theorem reparse_some_eq (prev : List (List Char)) (old : List Char) (start removed : Nat)
    (added : List Char) (e : Nat) (hn : nlAfter old (start + removed) = some e) :
    reparse prev old start removed added
      = prev.take (countNL (old.take (lineStartBelow old start)))
          ++ (splitLines (((applyDelta old start removed added).take
                (e + 1 + added.length - removed)).drop (lineStartBelow old start))).dropLast
          ++ prev.drop (countNL (old.take (e + 1))) := by
  show (match nlAfter old (start + removed) with
    | none =>
      prev.take (countNL (old.take (lineStartBelow old start)))
        ++ splitLines ((applyDelta old start removed added).drop (lineStartBelow old start))
    | some e =>
      prev.take (countNL (old.take (lineStartBelow old start)))
        ++ (splitLines (((applyDelta old start removed added).take
              (e + 1 + added.length - removed)).drop (lineStartBelow old start))).dropLast
        ++ prev.drop (countNL (old.take (e + 1)))) = _
  rw [hn]

theorem splitLines_take_prefix (A R : List Char)
    (hA : A = [] ∨ A.getLast? = some '\n') :
    (splitLines (A ++ R)).take (countNL A) = (splitLines A).dropLast := by
  rw [splitLines_append_complete A R hA]
  have hlen : (splitLines A).dropLast.length = countNL A := by
    rw [List.length_dropLast, splitLines_length]
    omega
  rw [← hlen, List.take_left]

theorem splitLines_drop_prefix_part (A R : List Char)
    (hA : A = [] ∨ A.getLast? = some '\n') :
    (splitLines (A ++ R)).drop (countNL A) = splitLines R := by
  rw [splitLines_append_complete A R hA]
  have hlen : (splitLines A).dropLast.length = countNL A := by
    rw [List.length_dropLast, splitLines_length]
    omega
  rw [← hlen, List.drop_left]

/-- C5: for any edit delta applied to any document content, the
incremental reparse (reusing the previous tree's unaffected line nodes)
produces exactly the tree of a full parse of the resulting content. -/
theorem reparse_eq_full_parse (old added : List Char) (start removed : Nat)
    (h : start + removed ≤ old.length) :
    reparse (splitLines old) old start removed added
      = splitLines (applyDelta old start removed added) := by
  have hstart : start ≤ old.length := by omega
  have haS : lineStartBelow old start ≤ start := lsb_le_pos old start
  have haA := lsb_take_complete old start
  have hAtake : (applyDelta old start removed added).take (lineStartBelow old start)
      = old.take (lineStartBelow old start) := by
    show ((old.take start) ++ (added ++ old.drop (start + removed))).take
        (lineStartBelow old start) = old.take (lineStartBelow old start)
    rw [List.take_append_of_le_length (by rw [List.length_take]; omega)]
    rw [List.take_take]
    rw [show lineStartBelow old start ⊓ start = lineStartBelow old start from by omega]
  have hpre : (splitLines old).take (countNL (old.take (lineStartBelow old start)))
      = (splitLines (old.take (lineStartBelow old start))).dropLast := by
    have h2 := splitLines_take_prefix (old.take (lineStartBelow old start))
      (old.drop (lineStartBelow old start)) haA
    rwa [List.take_append_drop] at h2
  rcases hn : nlAfter old (start + removed) with _ | e
  · rw [reparse_none_eq _ _ _ _ _ hn, hpre]
    have hdec : applyDelta old start removed added
        = old.take (lineStartBelow old start)
          ++ (applyDelta old start removed added).drop (lineStartBelow old start) := by
      conv_lhs => rw [← List.take_append_drop (lineStartBelow old start)
        (applyDelta old start removed added)]
      rw [hAtake]
    conv_rhs => rw [hdec]
    rw [splitLines_append_complete _ _ haA]
  · obtain ⟨hqe, hgetE⟩ := nlAfter_some old (start + removed) e hn
    have heLt : e < old.length := (List.get?_eq_some.mp hgetE).1
    rw [reparse_some_eq _ _ _ _ _ e hn, hpre]
    have harith1 : e + 1 + added.length - removed
        = (old.take start).length + (added.length + (e + 1 - (start + removed))) := by
      rw [List.length_take]
      omega
    have h1 : (applyDelta old start removed added).take (e + 1 + added.length - removed)
        = old.take start
            ++ (added ++ (old.drop (start + removed)).take (e + 1 - (start + removed))) := by
      show ((old.take start) ++ (added ++ old.drop (start + removed))).take
          (e + 1 + added.length - removed) = _
      rw [harith1, List.take_append, List.take_append]
    have h2 : (applyDelta old start removed added).drop (e + 1 + added.length - removed)
        = old.drop (e + 1) := by
      show ((old.take start) ++ (added ++ old.drop (start + removed))).drop
          (e + 1 + added.length - removed) = _
      rw [harith1, List.drop_append, List.drop_append, List.drop_drop]
      congr 1
      omega
    have hT : ((old.drop (start + removed)).take (e + 1 - (start + removed))).getLast?
        = some '\n' := by
      have hidx : (old.drop (start + removed)).get? (e - (start + removed)) = some '\n' := by
        rw [List.get?_drop]
        rw [show start + removed + (e - (start + removed)) = e from by omega]
        exact hgetE
      have h5 := getLast?_take_succ (old.drop (start + removed)) (e - (start + removed)) '\n' hidx
      rw [show e - (start + removed) + 1 = e + 1 - (start + removed) from by omega] at h5
      exact h5
    have h3 : ((applyDelta old start removed added).take
        (e + 1 + added.length - removed)).getLast? = some '\n' := by
      rw [h1, List.getLast?_append, List.getLast?_append, hT]
      rfl
    have hB : (old.take (e + 1)).getLast? = some '\n' := getLast?_take_succ old e '\n' hgetE
    have hsuf : (splitLines old).drop (countNL (old.take (e + 1)))
        = splitLines (old.drop (e + 1)) := by
      have h4 := splitLines_drop_prefix_part (old.take (e + 1)) (old.drop (e + 1)) (Or.inr hB)
      rwa [List.take_append_drop] at h4
    rw [hsuf]
    have hmidtake : ((applyDelta old start removed added).take
        (e + 1 + added.length - removed)).take (lineStartBelow old start)
          = old.take (lineStartBelow old start) := by
      rw [List.take_take]
      rw [show lineStartBelow old start ⊓ (e + 1 + added.length - removed)
          = lineStartBelow old start from by omega]
      exact hAtake
    have hmiddec : (applyDelta old start removed added).take (e + 1 + added.length - removed)
        = old.take (lineStartBelow old start)
          ++ ((applyDelta old start removed added).take
                (e + 1 + added.length - removed)).drop (lineStartBelow old start) := by
      conv_lhs => rw [← List.take_append_drop (lineStartBelow old start)
        ((applyDelta old start removed added).take (e + 1 + added.length - removed))]
      rw [hmidtake]
    have hfull : applyDelta old start removed added
        = (applyDelta old start removed added).take (e + 1 + added.length - removed)
            ++ old.drop (e + 1) := by
      conv_lhs => rw [← List.take_append_drop (e + 1 + added.length - removed)
        (applyDelta old start removed added)]
      rw [h2]
    conv_rhs => rw [hfull]
    rw [splitLines_append_complete _ _ (Or.inr h3)]
    conv_rhs => rw [hmiddec]
    rw [splitLines_append_complete _ _ haA]
    rw [List.dropLast_append]
    have hM : (splitLines (((applyDelta old start removed added).take
        (e + 1 + added.length - removed)).drop (lineStartBelow old start))).isEmpty = false := by
      rcases hq : splitLines (((applyDelta old start removed added).take
          (e + 1 + added.length - removed)).drop (lineStartBelow old start)) with _ | ⟨x, xs⟩
      · exact absurd hq (splitLines_ne_nil _)
      · rfl
    rw [hM]
    rw [if_neg (by decide)]

/-- C5 witness: a concrete edit (replacing one character by two in the
middle line of a three-line document). -/
theorem reparse_eq_full_parse_witness :
    (4 : Nat) + 1 ≤ (['a', 'b', '\n', 'c', 'd', '\n', 'e', 'f'] : List Char).length ∧
      reparse (splitLines ['a', 'b', '\n', 'c', 'd', '\n', 'e', 'f'])
          ['a', 'b', '\n', 'c', 'd', '\n', 'e', 'f'] 4 1 ['X', 'Y']
        = splitLines (applyDelta ['a', 'b', '\n', 'c', 'd', '\n', 'e', 'f'] 4 1 ['X', 'Y']) :=
  ⟨by decide,
    reparse_eq_full_parse ['a', 'b', '\n', 'c', 'd', '\n', 'e', 'f'] ['X', 'Y'] 4 1 (by decide)⟩

/-- C10 witness: a concrete selection containing U+2029. -/
theorem selectedText_no_paragraph_separator_witness :
    (['a'] : List Char).get? 0 = some 'a' ∧
      (selectedText [Char.ofNat 8233, 'a']).get? 0 = some '\n' ∧
      (selectedText [Char.ofNat 8233, 'a']).get? 1 = some 'a' :=
  ⟨by decide,
    (selectedText_no_paragraph_separator [Char.ofNat 8233, 'a']).2.1 0 (by decide),
    (selectedText_no_paragraph_separator [Char.ofNat 8233, 'a']).2.2 1 'a' (by decide)
      (by decide)⟩

end Knut
